import Mathlib

/-!
Verification of the per-channel session/process orchestration core of
`second-brain-kit`, shallowly embedded in Lean 4.

Strings are modelled as `List Char`.  The four components modelled here,
each translated from its Python source file:

* `split_message` and its helpers — `src/second_brain_kit/message_splitter.py`
* `parseOutput`, `runModel` — `src/second_brain_kit/claude_runner.py`
  (`ClaudeRunner._parse_output` / `ClaudeRunner.run`); `json.loads` and
  Python's `str()` on parsed values are kept abstract as function
  parameters, exceptions are modelled with `Except`
* the session store — `src/second_brain_kit/session_store.py`
* the response-handling tail of `ChatCog._handle_message` —
  `src/second_brain_kit/cog_chat.py`
-/

set_option maxRecDepth 20000

namespace SecondBrainKit

/-! ### message_splitter.py -/

/-- `DISCORD_MAX = 2000` -/
def DISCORD_MAX : Nat := 2000

/-- `SAFE_MAX = DISCORD_MAX - 20` -/
def SAFE_MAX : Nat := DISCORD_MAX - 20

/-- The triple-backtick fence marker. -/
def fenceStr : List Char := ['`', '`', '`']

/-- Index of the last occurrence of character `t` in the list, if any. -/
def lastIdxOf (t : Char) : List Char → Option Nat
  | [] => none
  | c :: rest =>
    match lastIdxOf t rest with
    | some i => some (i + 1)
    | none => if c = t then some 0 else none

/-- Index of the first occurrence of character `t` in the list, if any. -/
def firstIdxOf (t : Char) : List Char → Option Nat
  | [] => none
  | c :: rest =>
    if c = t then some 0
    else
      match firstIdxOf t rest with
      | some i => some (i + 1)
      | none => none

/-- Python `text.rfind(t, start, stop)` for a single character: highest index
`i` with `start ≤ i`, `i + 1 ≤ stop` and `text[i] = t`, else `-1`. -/
def pyRfindWin (t : Char) (text : List Char) (start stop : Nat) : Int :=
  match lastIdxOf t ((text.drop start).take (stop - start)) with
  | some i => (start + i : Nat)
  | none => -1

/-- `_find_split_point` from message_splitter.py. -/
def findSplitPoint (text : List Char) : Nat :=
  let searchStart := max 0 (SAFE_MAX - 200)
  let lastNewline := pyRfindWin '\n' text searchStart SAFE_MAX
  if 0 < lastNewline then (lastNewline + 1).toNat else SAFE_MAX

/-- Python `chunk.count("\x60\x60\x60")`: number of non-overlapping
occurrences of the triple-backtick marker, scanning from the left. -/
def countFences : List Char → Nat
  | '`' :: '`' :: '`' :: rest => countFences rest + 1
  | _ :: rest => countFences rest
  | [] => 0

/-- Start index of the last occurrence of the triple-backtick marker
(`chunk.rfind("\x60\x60\x60")`, `none` instead of `-1`). -/
def lastFenceIdx : List Char → Option Nat
  | [] => none
  | c :: rest =>
    match lastFenceIdx rest with
    | some i => some (i + 1)
    | none => if c = '`' ∧ rest.take 2 = ['`', '`'] then some 0 else none

/-- The characters Python `str.isspace()` accepts, which is exactly what
`str.strip()` strips: the ASCII whitespace `\t \n \v \f \r` and space, the
separators U+001C..U+001F, NEXT LINE U+0085, NO-BREAK SPACE U+00A0, OGHAM
SPACE MARK U+1680, the Zs spaces U+2000..U+200A, LINE/PARAGRAPH SEPARATOR
U+2028/U+2029, NARROW NO-BREAK SPACE U+202F, MEDIUM MATHEMATICAL SPACE
U+205F and IDEOGRAPHIC SPACE U+3000. -/
def isPySpace (c : Char) : Bool :=
  c == ' ' || c == '\t' || c == '\n' || c == '\r' || c == '\x0b' || c == '\x0c'
    || c == '\x1c' || c == '\x1d' || c == '\x1e' || c == '\x1f'
    || c == '\x85' || c == '\xa0' || c == '\u1680'
    || c == '\u2000' || c == '\u2001' || c == '\u2002' || c == '\u2003'
    || c == '\u2004' || c == '\u2005' || c == '\u2006' || c == '\u2007'
    || c == '\u2008' || c == '\u2009' || c == '\u200a'
    || c == '\u2028' || c == '\u2029' || c == '\u202f' || c == '\u205f'
    || c == '\u3000'

/-- Python `s.strip()`. -/
def pyStrip (l : List Char) : List Char :=
  ((l.dropWhile isPySpace).reverse.dropWhile isPySpace).reverse

/-- `_fix_code_blocks` from message_splitter.py. -/
def fixCodeBlocks (chunk remaining : List Char) : List Char × List Char :=
  if countFences chunk % 2 = 1 then
    let lastFence : Int :=
      match lastFenceIdx chunk with
      | some i => i
      | none => -1
    let afterFence :=
      pyStrip ((chunk.drop (lastFence + 3).toNat).takeWhile (fun c => c ≠ '\n'))
    let lang := afterFence
    (chunk ++ '\n' :: fenceStr, fenceStr ++ lang ++ '\n' :: remaining)
  else (chunk, remaining)

/-- The `while remaining:` loop of `split_message`, with explicit fuel; `none`
means the fuel ran out (the Python loop does not terminate on all inputs). -/
def splitLoop : Nat → List Char → List (List Char) → Option (List (List Char))
  | 0, _, _ => none
  | fuel + 1, remaining, acc =>
    if remaining.isEmpty then some acc.reverse
    else if remaining.length ≤ DISCORD_MAX then some (acc.reverse ++ [remaining])
    else
      let splitAt := findSplitPoint remaining
      let chunk := remaining.take splitAt
      let rest := remaining.drop splitAt
      let fixed := fixCodeBlocks chunk rest
      splitLoop fuel fixed.2 (fixed.1 :: acc)

/-- `split_message` from message_splitter.py. -/
def split_message (text : List Char) : Option (List (List Char)) :=
  if text.length ≤ DISCORD_MAX then some [text]
  else splitLoop (text.length * text.length + 2) text []

/-! ### Basic facts about the splitter's helpers -/

theorem SAFE_MAX_eq : SAFE_MAX = 1980 := rfl

theorem countFences_nil : countFences [] = 0 := rfl

theorem countFences_triple (rest : List Char) :
    countFences ('`' :: '`' :: '`' :: rest) = countFences rest + 1 := rfl

/-- If the first two elements of `rest` are backticks, `rest` decomposes. -/
theorem take_two_backticks (rest : List Char) (h : rest.take 2 = ['`', '`']) :
    ∃ t, rest = '`' :: '`' :: t := by
  match rest with
  | [] => simp at h
  | [x] => simp at h
  | x :: y :: t =>
    simp [List.take] at h
    exact ⟨t, by rw [h.1, h.2]⟩

theorem countFences_cons (a : Char) (rest : List Char)
    (h : ¬(a = '`' ∧ rest.take 2 = ['`', '`'])) :
    countFences (a :: rest) = countFences rest :=
  countFences.eq_2 a rest (fun _ ha hr => h ⟨ha, by rw [hr]; rfl⟩)

theorem countFences_eq_zero_of_not_mem (l : List Char) (h : '`' ∉ l) :
    countFences l = 0 := by
  induction l with
  | nil => rfl
  | cons a rest ih =>
    rw [countFences_cons a rest (fun hc => h (hc.1 ▸ List.mem_cons_self a rest))]
    exact ih (fun hm => h (List.mem_cons_of_mem a hm))

theorem countFences_replicate_append (a : Char) (h : a ≠ '`') (n : Nat) (l : List Char) :
    countFences (List.replicate n a ++ l) = countFences l := by
  induction n with
  | zero => simp
  | succ n ih =>
    rw [List.replicate_succ, List.cons_append, countFences_cons a _ (fun hc => h hc.1), ih]

theorem countFences_take_eq_zero (l : List Char) (h : countFences l = 0) (n : Nat) :
    countFences (l.take n) = 0 := by
  induction l generalizing n with
  | nil => simpa using h
  | cons a rest ih =>
    have hnt : ¬(a = '`' ∧ rest.take 2 = ['`', '`']) := by
      rintro ⟨ha, ht⟩
      obtain ⟨t, rfl⟩ := take_two_backticks rest ht
      rw [ha, countFences_triple] at h
      exact absurd h (Nat.succ_ne_zero _)
    have hrest : countFences rest = 0 := by rwa [countFences_cons a rest hnt] at h
    match n with
    | 0 => rfl
    | n + 1 =>
      rw [List.take_succ_cons]
      have hnt2 : ¬(a = '`' ∧ (rest.take n).take 2 = ['`', '`']) := by
        rintro ⟨ha, ht⟩
        rw [List.take_take] at ht
        have hlen := congrArg List.length ht
        simp [List.length_take] at hlen
        have hn2 : 2 ≤ n := by omega
        rw [Nat.min_eq_left hn2] at ht
        exact hnt ⟨ha, ht⟩
      rw [countFences_cons a _ hnt2]
      exact ih hrest n

theorem countFences_drop_eq_zero (l : List Char) (h : countFences l = 0) (n : Nat) :
    countFences (l.drop n) = 0 := by
  induction l generalizing n with
  | nil => simpa using h
  | cons a rest ih =>
    have hnt : ¬(a = '`' ∧ rest.take 2 = ['`', '`']) := by
      rintro ⟨ha, ht⟩
      obtain ⟨t, rfl⟩ := take_two_backticks rest ht
      rw [ha, countFences_triple] at h
      exact absurd h (Nat.succ_ne_zero _)
    have hrest : countFences rest = 0 := by rwa [countFences_cons a rest hnt] at h
    match n with
    | 0 => exact h
    | n + 1 => rw [List.drop_succ_cons]; exact ih hrest n

/-- Appending the repair text `"\n\x60\x60\x60"` adds exactly one fence marker. -/
theorem countFences_append_fence (c : List Char) :
    countFences (c ++ '\n' :: fenceStr) = countFences c + 1 := by
  suffices H : ∀ (N : Nat) (c : List Char), c.length ≤ N →
      countFences (c ++ '\n' :: fenceStr) = countFences c + 1 from H c.length c le_rfl
  intro N
  induction N with
  | zero =>
    intro c hc
    have : c = [] := List.eq_nil_of_length_eq_zero (Nat.le_zero.mp hc)
    subst this
    decide
  | succ N ih =>
    intro c hc
    match c with
    | [] => decide
    | a :: rest =>
      by_cases h3 : a = '`' ∧ rest.take 2 = ['`', '`']
      · obtain ⟨t, rfl⟩ := take_two_backticks rest h3.2
        have ha := h3.1
        subst ha
        have hlt : t.length ≤ N := by
          simp [List.length_cons] at hc
          omega
        show countFences (('`' :: '`' :: '`' :: t) ++ '\n' :: fenceStr) = _
        rw [List.cons_append, List.cons_append, List.cons_append,
          countFences_triple, countFences_triple, ih t hlt]
      · have hnt2 : ¬(a = '`' ∧ (rest ++ '\n' :: fenceStr).take 2 = ['`', '`']) := by
          rintro ⟨ha, ht⟩
          apply h3
          refine ⟨ha, ?_⟩
          match rest with
          | [] => simp [fenceStr, List.take] at ht
          | [x] => simp [fenceStr, List.take] at ht
          | x :: y :: t =>
            rw [List.cons_append, List.cons_append] at ht
            simpa [List.take] using ht
        rw [List.cons_append, countFences_cons a _ hnt2, countFences_cons a rest h3,
          ih rest (by simp [List.length_cons] at hc; omega)]

/-- A chunk with an even fence count is passed through unchanged. -/
theorem fixCodeBlocks_of_even (c r : List Char) (h : countFences c % 2 = 0) :
    fixCodeBlocks c r = (c, r) := by
  unfold fixCodeBlocks
  rw [if_neg (by omega)]

/-- After `_fix_code_blocks`, the emitted chunk always has an even fence count. -/
theorem fixCodeBlocks_fst_even (c r : List Char) :
    countFences (fixCodeBlocks c r).1 % 2 = 0 := by
  by_cases h : countFences c % 2 = 1
  · unfold fixCodeBlocks
    rw [if_pos h]
    simp only [countFences_append_fence]
    omega
  · rw [fixCodeBlocks_of_even c r (by omega)]
    show countFences c % 2 = 0
    omega

/-- Fence repair appends at most 4 characters to a chunk. -/
theorem fixCodeBlocks_fst_length (c r : List Char) :
    (fixCodeBlocks c r).1.length ≤ c.length + 4 := by
  by_cases h : countFences c % 2 = 1
  · unfold fixCodeBlocks
    rw [if_pos h]
    simp [fenceStr]
  · rw [fixCodeBlocks_of_even c r (by omega)]
    show c.length ≤ c.length + 4
    omega

theorem lastIdxOf_lt_length (t : Char) (l : List Char) (i : Nat)
    (h : lastIdxOf t l = some i) : i < l.length := by
  induction l generalizing i with
  | nil => simp [lastIdxOf] at h
  | cons c rest ih =>
    rw [lastIdxOf] at h
    match hrec : lastIdxOf t rest with
    | some j =>
      rw [hrec] at h
      injection h with h
      subst h
      simpa using Nat.succ_lt_succ (ih j hrec)
    | none =>
      rw [hrec] at h
      by_cases hc : c = t
      · rw [if_pos hc] at h
        injection h with h
        subst h
        simp
      · rw [if_neg hc] at h
        exact absurd h (by simp)

theorem lastIdxOf_eq_none_of_not_mem (t : Char) (l : List Char) (h : t ∉ l) :
    lastIdxOf t l = none := by
  induction l with
  | nil => rfl
  | cons c rest ih =>
    rw [lastIdxOf, ih (fun hm => h (List.mem_cons_of_mem c hm)),
      if_neg (fun hc => h (by rw [← hc]; exact List.mem_cons_self c rest))]

theorem lastFenceIdx_eq_none_of_not_mem (l : List Char) (h : '`' ∉ l) :
    lastFenceIdx l = none := by
  induction l with
  | nil => rfl
  | cons c rest ih =>
    rw [lastFenceIdx, ih (fun hm => h (List.mem_cons_of_mem c hm)),
      if_neg (fun hc => h (by rw [← hc.1]; exact List.mem_cons_self c rest))]

/-- A found `rfind` index is below the `stop` bound. -/
theorem pyRfindWin_lt_stop (t : Char) (text : List Char) (start stop : Nat)
    (h : 0 < pyRfindWin t text start stop) :
    pyRfindWin t text start stop < (stop : Int) := by
  unfold pyRfindWin at h ⊢
  match hl : lastIdxOf t ((text.drop start).take (stop - start)) with
  | none =>
    dsimp only at h ⊢
    omega
  | some i =>
    dsimp only at h ⊢
    have hi := lastIdxOf_lt_length _ _ _ hl
    rw [List.length_take] at hi
    have hi2 : i < stop - start := lt_of_lt_of_le hi (min_le_left _ _)
    omega

/-- `_find_split_point` never returns an index beyond `SAFE_MAX`. -/
theorem findSplitPoint_le (text : List Char) : findSplitPoint text ≤ SAFE_MAX := by
  show (if 0 < pyRfindWin '\n' text (max 0 (SAFE_MAX - 200)) SAFE_MAX then
      (pyRfindWin '\n' text (max 0 (SAFE_MAX - 200)) SAFE_MAX + 1).toNat
    else SAFE_MAX) ≤ SAFE_MAX
  by_cases hpos : 0 < pyRfindWin '\n' text (max 0 (SAFE_MAX - 200)) SAFE_MAX
  · rw [if_pos hpos]
    have hlt := pyRfindWin_lt_stop '\n' text (max 0 (SAFE_MAX - 200)) SAFE_MAX hpos
    omega
  · rw [if_neg hpos]

/-- If the 200-character search window contains no newline, `_find_split_point`
splits exactly at `SAFE_MAX`. -/
theorem findSplitPoint_of_no_newline (text : List Char)
    (h : '\n' ∉ (text.drop 1780).take 200) : findSplitPoint text = SAFE_MAX := by
  have hnone : pyRfindWin '\n' text (max 0 (SAFE_MAX - 200)) SAFE_MAX = -1 := by
    show (match lastIdxOf '\n' ((text.drop (max 0 (SAFE_MAX - 200))).take
        (SAFE_MAX - max 0 (SAFE_MAX - 200))) with
      | some i => ((max 0 (SAFE_MAX - 200)) + i : Nat)
      | none => (-1 : Int)) = -1
    rw [show max 0 (SAFE_MAX - 200) = 1780 from rfl,
      show SAFE_MAX - 1780 = 200 from rfl,
      lastIdxOf_eq_none_of_not_mem _ _ h]
  show (if 0 < pyRfindWin '\n' text (max 0 (SAFE_MAX - 200)) SAFE_MAX then
      (pyRfindWin '\n' text (max 0 (SAFE_MAX - 200)) SAFE_MAX + 1).toNat
    else SAFE_MAX) = SAFE_MAX
  rw [hnone]
  norm_num

/-! ### Behaviour of the `while remaining:` loop -/

theorem splitLoop_succ (fuel : Nat) (rem : List Char) (acc : List (List Char)) :
    splitLoop (fuel + 1) rem acc =
      if rem.isEmpty then some acc.reverse
      else if rem.length ≤ DISCORD_MAX then some (acc.reverse ++ [rem])
      else
        splitLoop fuel
          (fixCodeBlocks (rem.take (findSplitPoint rem)) (rem.drop (findSplitPoint rem))).2
          ((fixCodeBlocks (rem.take (findSplitPoint rem)) (rem.drop (findSplitPoint rem))).1
            :: acc) := rfl

/-- Loop invariant for the round-trip property on fence-free input: the chunks
produced so far, followed by the remaining text, reassemble the original. -/
theorem splitLoop_flatten (fuel : Nat) :
    ∀ (rem : List Char) (acc cs : List (List Char)), countFences rem = 0 →
      splitLoop fuel rem acc = some cs →
      cs.flatten = acc.reverse.flatten ++ rem := by
  induction fuel with
  | zero => intro rem acc cs _ hs; simp [splitLoop] at hs
  | succ f ih =>
    intro rem acc cs h0 hs
    rw [splitLoop_succ] at hs
    by_cases h1 : rem.isEmpty
    · rw [if_pos h1] at hs
      injection hs with hs
      subst hs
      rw [List.isEmpty_iff.mp h1]
      simp
    · rw [if_neg h1] at hs
      by_cases h2 : rem.length ≤ DISCORD_MAX
      · rw [if_pos h2] at hs
        injection hs with hs
        subst hs
        simp
      · rw [if_neg h2] at hs
        rw [fixCodeBlocks_of_even _ _
          (by rw [countFences_take_eq_zero rem h0]) ] at hs
        have := ih _ _ _ (countFences_drop_eq_zero rem h0 _) hs
        rw [this]
        simp [List.append_assoc]

/-- Loop invariant for fence balance: every chunk already emitted, and every
chunk the loop will emit except possibly the final one, has an even count. -/
theorem splitLoop_dropLast_even (fuel : Nat) :
    ∀ (rem : List Char) (acc cs : List (List Char)),
      splitLoop fuel rem acc = some cs →
      (∀ c ∈ acc, countFences c % 2 = 0) →
      ∀ c ∈ cs.dropLast, countFences c % 2 = 0 := by
  induction fuel with
  | zero => intro rem acc cs hs _; simp [splitLoop] at hs
  | succ f ih =>
    intro rem acc cs hs hacc
    rw [splitLoop_succ] at hs
    by_cases h1 : rem.isEmpty
    · rw [if_pos h1] at hs
      injection hs with hs
      subst hs
      intro c hc
      exact hacc c (List.mem_reverse.mp ((List.dropLast_sublist _).mem hc))
    · rw [if_neg h1] at hs
      by_cases h2 : rem.length ≤ DISCORD_MAX
      · rw [if_pos h2] at hs
        injection hs with hs
        subst hs
        intro c hc
        rw [List.dropLast_concat] at hc
        exact hacc c (List.mem_reverse.mp hc)
      · rw [if_neg h2] at hs
        refine ih _ _ _ hs ?_
        intro c hc
        rcases List.mem_cons.mp hc with hc | hc
        · rw [hc]; exact fixCodeBlocks_fst_even _ _
        · exact hacc c hc

/-- Loop invariant for the transport limit: every emitted chunk fits in
`DISCORD_MAX` characters. -/
theorem splitLoop_length_le (fuel : Nat) :
    ∀ (rem : List Char) (acc cs : List (List Char)),
      splitLoop fuel rem acc = some cs →
      (∀ c ∈ acc, c.length ≤ DISCORD_MAX) →
      ∀ c ∈ cs, c.length ≤ DISCORD_MAX := by
  induction fuel with
  | zero => intro rem acc cs hs _; simp [splitLoop] at hs
  | succ f ih =>
    intro rem acc cs hs hacc
    rw [splitLoop_succ] at hs
    by_cases h1 : rem.isEmpty
    · rw [if_pos h1] at hs
      injection hs with hs
      subst hs
      intro c hc
      exact hacc c (List.mem_reverse.mp hc)
    · rw [if_neg h1] at hs
      by_cases h2 : rem.length ≤ DISCORD_MAX
      · rw [if_pos h2] at hs
        injection hs with hs
        subst hs
        intro c hc
        rcases List.mem_append.mp hc with hc | hc
        · exact hacc c (List.mem_reverse.mp hc)
        · rw [List.mem_singleton.mp hc]; exact h2
      · rw [if_neg h2] at hs
        refine ih _ _ _ hs ?_
        intro c hc
        rcases List.mem_cons.mp hc with hc | hc
        · subst hc
          calc (fixCodeBlocks (rem.take (findSplitPoint rem))
                  (rem.drop (findSplitPoint rem))).1.length
              ≤ (rem.take (findSplitPoint rem)).length + 4 :=
                fixCodeBlocks_fst_length _ _
            _ ≤ findSplitPoint rem + 4 := by
                rw [List.length_take]; omega
            _ ≤ SAFE_MAX + 4 := by
                have := findSplitPoint_le rem; omega
            _ ≤ DISCORD_MAX := by rw [SAFE_MAX_eq]; norm_num [DISCORD_MAX]
        · exact hacc c hc

/-- Evaluation rule: an input that splits once, with the remainder fitting in
a single further chunk, yields exactly two chunks. -/
theorem split_message_two (text : List Char)
    (h1 : DISCORD_MAX < text.length)
    (h2 : (fixCodeBlocks (text.take (findSplitPoint text))
        (text.drop (findSplitPoint text))).2 ≠ [])
    (h3 : (fixCodeBlocks (text.take (findSplitPoint text))
        (text.drop (findSplitPoint text))).2.length ≤ DISCORD_MAX) :
    split_message text =
      some [(fixCodeBlocks (text.take (findSplitPoint text))
              (text.drop (findSplitPoint text))).1,
            (fixCodeBlocks (text.take (findSplitPoint text))
              (text.drop (findSplitPoint text))).2] := by
  unfold split_message
  rw [if_neg (by omega)]
  rw [show text.length * text.length + 2 = (text.length * text.length + 1) + 1 from rfl,
    splitLoop_succ]
  have hne : text ≠ [] := by
    intro hnil
    rw [hnil] at h1
    simp [DISCORD_MAX] at h1
  rw [if_neg (by simp [hne]), if_neg (by omega),
    show text.length * text.length + 1 = (text.length * text.length) + 1 from rfl,
    splitLoop_succ, if_neg (by simp [h2]), if_pos h3]
  rfl

/-- A uniformly repeated character (neither backtick nor newline), with length
between one and two transport limits, splits into exactly two plain chunks. -/
theorem split_message_replicate (c : Char) (n : Nat) (hbt : c ≠ '`') (hnl : c ≠ '\n')
    (hlo : DISCORD_MAX < n) (hhi : n ≤ SAFE_MAX + DISCORD_MAX) :
    split_message (List.replicate n c) =
      some [List.replicate SAFE_MAX c, List.replicate (n - SAFE_MAX) c] := by
  have hS : SAFE_MAX = 1980 := rfl
  have hD : DISCORD_MAX = 2000 := rfl
  have hfsp : findSplitPoint (List.replicate n c) = SAFE_MAX := by
    apply findSplitPoint_of_no_newline
    intro hm
    rw [List.drop_replicate, List.take_replicate] at hm
    exact hnl ((List.mem_replicate.mp hm).2.symm)
  have htake : (List.replicate n c).take (findSplitPoint (List.replicate n c)) =
      List.replicate SAFE_MAX c := by
    rw [hfsp, List.take_replicate, Nat.min_eq_left (by omega)]
  have hdrop : (List.replicate n c).drop (findSplitPoint (List.replicate n c)) =
      List.replicate (n - SAFE_MAX) c := by
    rw [hfsp, List.drop_replicate]
  have hfix : fixCodeBlocks
      ((List.replicate n c).take (findSplitPoint (List.replicate n c)))
      ((List.replicate n c).drop (findSplitPoint (List.replicate n c))) =
      (List.replicate SAFE_MAX c, List.replicate (n - SAFE_MAX) c) := by
    rw [htake, hdrop, fixCodeBlocks_of_even]
    rw [countFences_eq_zero_of_not_mem]
    intro hm
    exact hbt ((List.mem_replicate.mp hm).2.symm)
  rw [split_message_two (List.replicate n c) (by rw [List.length_replicate]; omega)
    (by rw [hfix]; simp; omega)
    (by rw [hfix]; simp [List.length_replicate]; omega), hfix]

/-! ### Concrete splitter runs used by counterexamples -/

/-- A 2104-character input opening a fenced code block: 3 backticks, a
newline, then 2100 copies of `a`. -/
def c1In : List Char := '`' :: '`' :: '`' :: '\n' :: List.replicate 2100 'a'

/-- The first chunk the splitter produces on `c1In` (closing fence appended). -/
def c1Out1 : List Char :=
  ('`' :: '`' :: '`' :: '\n' :: List.replicate 1976 'a') ++ '\n' :: fenceStr

/-- The second chunk the splitter produces on `c1In` (reopening fence). -/
def c1Out2 : List Char := fenceStr ++ '\n' :: List.replicate 124 'a'

theorem c1In_eq_append :
    c1In = ['`', '`', '`', '\n'] ++ List.replicate 2100 'a' := rfl

theorem c1In_findSplitPoint : findSplitPoint c1In = SAFE_MAX := by
  apply findSplitPoint_of_no_newline
  rw [c1In_eq_append, List.drop_append_eq_append_drop,
    List.drop_eq_nil_of_le (by norm_num), List.drop_replicate, List.nil_append,
    List.take_replicate]
  intro hm
  exact absurd (List.mem_replicate.mp hm).2 (by decide)

theorem c1In_take :
    c1In.take (findSplitPoint c1In) = '`' :: '`' :: '`' :: '\n' :: List.replicate 1976 'a' := by
  rw [c1In_findSplitPoint, c1In_eq_append, SAFE_MAX_eq, List.take_append_eq_append_take,
    List.take_of_length_le (by norm_num), List.take_replicate]
  norm_num

theorem c1In_drop :
    c1In.drop (findSplitPoint c1In) = List.replicate 124 'a' := by
  rw [c1In_findSplitPoint, c1In_eq_append, SAFE_MAX_eq, List.drop_append_eq_append_drop,
    List.drop_eq_nil_of_le (by norm_num), List.drop_replicate, List.nil_append]
  norm_num

theorem c1In_chunk_fences :
    countFences ('`' :: '`' :: '`' :: '\n' :: List.replicate 1976 'a') = 1 := by
  rw [countFences_triple, countFences_cons '\n' _ (by
    rintro ⟨h, -⟩
    exact absurd h (by decide)),
    countFences_eq_zero_of_not_mem]
  intro hm
  exact absurd (List.mem_replicate.mp hm).2 (by decide)

theorem lastFenceIdx_cons (c : Char) (rest : List Char) :
    lastFenceIdx (c :: rest) =
      match lastFenceIdx rest with
      | some i => some (i + 1)
      | none => if c = '`' ∧ rest.take 2 = ['`', '`'] then some 0 else none := rfl

theorem c1In_chunk_lastFence :
    lastFenceIdx ('`' :: '`' :: '`' :: '\n' :: List.replicate 1976 'a') = some 0 := by
  have h4 : lastFenceIdx ('\n' :: List.replicate 1976 'a') = none := by
    apply lastFenceIdx_eq_none_of_not_mem
    intro hm
    rcases List.mem_cons.mp hm with hm | hm
    · exact absurd hm (by decide)
    · exact absurd (List.mem_replicate.mp hm).2 (by decide)
  have h3 : lastFenceIdx ('`' :: '\n' :: List.replicate 1976 'a') = none := by
    rw [lastFenceIdx_cons, h4]
    dsimp only
    rw [if_neg]
    rintro ⟨-, ht⟩
    obtain ⟨t, ht2⟩ := take_two_backticks _ ht
    injection ht2 with h1 h2
    exact absurd h1 (by decide)
  have h2 : lastFenceIdx ('`' :: '`' :: '\n' :: List.replicate 1976 'a') = none := by
    rw [lastFenceIdx_cons, h3]
    dsimp only
    rw [if_neg]
    rintro ⟨-, ht⟩
    obtain ⟨t, ht2⟩ := take_two_backticks _ ht
    injection ht2 with h0 h1
    injection h1 with h1 h2
    exact absurd h1 (by decide)
  rw [lastFenceIdx_cons, h2]
  dsimp only
  rw [if_pos ⟨rfl, rfl⟩]

theorem c1In_fix : fixCodeBlocks (c1In.take (findSplitPoint c1In))
    (c1In.drop (findSplitPoint c1In)) = (c1Out1, c1Out2) := by
  rw [c1In_take, c1In_drop]
  unfold fixCodeBlocks
  rw [c1In_chunk_fences, if_pos (by norm_num), c1In_chunk_lastFence]
  rfl

theorem c1In_split : split_message c1In = some [c1Out1, c1Out2] := by
  rw [split_message_two c1In (by rw [c1In_eq_append]; simp [DISCORD_MAX])
    (by rw [c1In_fix]; simp [c1Out2, fenceStr])
    (by rw [c1In_fix]; simp [c1Out2, fenceStr, DISCORD_MAX]), c1In_fix]

/-- A 2083-character input with a run of six backticks across the split
point: 1978 copies of `a`, six backticks, 99 copies of `a`. -/
def c5In : List Char :=
  List.replicate 1978 'a' ++ (List.replicate 6 '`' ++ List.replicate 99 'a')

/-- The first chunk the splitter produces on `c5In`. -/
def c5Out1 : List Char := List.replicate 1978 'a' ++ List.replicate 2 '`'

/-- The second (final) chunk the splitter produces on `c5In`. -/
def c5Out2 : List Char := List.replicate 4 '`' ++ List.replicate 99 'a'

theorem c5In_fences : countFences c5In = 2 := by
  unfold c5In
  rw [countFences_replicate_append 'a' (by decide),
    show (List.replicate 6 '`' : List Char) = ['`', '`', '`', '`', '`', '`'] from rfl]
  simp only [List.cons_append, List.nil_append]
  rw [countFences_triple, countFences_triple, countFences_eq_zero_of_not_mem]
  intro hm
  exact absurd (List.mem_replicate.mp hm).2 (by decide)

theorem c5In_findSplitPoint : findSplitPoint c5In = SAFE_MAX := by
  apply findSplitPoint_of_no_newline
  intro hm
  have hm2 : '\n' ∈ c5In := List.drop_subset _ _ (List.take_subset _ _ hm)
  unfold c5In at hm2
  rcases List.mem_append.mp hm2 with hm2 | hm2
  · exact absurd (List.mem_replicate.mp hm2).2 (by decide)
  · rcases List.mem_append.mp hm2 with hm2 | hm2
    · exact absurd (List.mem_replicate.mp hm2).2 (by decide)
    · exact absurd (List.mem_replicate.mp hm2).2 (by decide)

theorem c5In_take : c5In.take (findSplitPoint c5In) = c5Out1 := by
  rw [c5In_findSplitPoint, SAFE_MAX_eq]
  unfold c5In c5Out1
  rw [List.take_append_eq_append_take, List.take_replicate, List.length_replicate,
    List.take_append_eq_append_take, List.take_replicate, List.length_replicate]
  norm_num

theorem c5In_drop : c5In.drop (findSplitPoint c5In) = c5Out2 := by
  rw [c5In_findSplitPoint, SAFE_MAX_eq]
  unfold c5In c5Out2
  rw [List.drop_append_eq_append_drop, List.drop_replicate, List.length_replicate,
    List.drop_append_eq_append_drop, List.drop_replicate, List.length_replicate]
  norm_num

theorem c5Out1_fences : countFences c5Out1 = 0 := by
  unfold c5Out1
  rw [countFences_replicate_append 'a' (by decide)]
  decide

theorem c5Out2_fences : countFences c5Out2 = 1 := by
  unfold c5Out2
  rw [show (List.replicate 4 '`' : List Char) = ['`', '`', '`', '`'] from rfl]
  simp only [List.cons_append, List.nil_append]
  have h99 : countFences (List.replicate 99 'a') = 0 :=
    countFences_eq_zero_of_not_mem _
      (fun hm => absurd (List.mem_replicate.mp hm).2 (by decide))
  have hcons : countFences ('`' :: List.replicate 99 'a')
      = countFences (List.replicate 99 'a') := by
    apply countFences_cons
    rintro ⟨-, ht⟩
    obtain ⟨t, ht2⟩ := take_two_backticks _ ht
    have hmem : '`' ∈ List.replicate 99 'a' := by
      rw [ht2]; exact List.mem_cons_self _ _
    exact absurd (List.mem_replicate.mp hmem).2 (by decide)
  rw [countFences_triple, hcons, h99]

theorem c5In_split : split_message c5In = some [c5Out1, c5Out2] := by
  have hfix : fixCodeBlocks (c5In.take (findSplitPoint c5In))
      (c5In.drop (findSplitPoint c5In)) = (c5Out1, c5Out2) := by
    rw [c5In_take, c5In_drop, fixCodeBlocks_of_even _ _ (by rw [c5Out1_fences])]
  rw [split_message_two c5In (by unfold c5In; simp [DISCORD_MAX])
    (by rw [hfix]; unfold c5Out2; simp)
    (by rw [hfix]; unfold c5Out2; simp [DISCORD_MAX]), hfix]

/-! ### Claims C1, C5, C10: the message splitter -/

/-- C1 (amended): for every input string containing no triple-backtick fence
marker, concatenating the chunks returned by `split_message` in order
reproduces the original input string exactly. -/
theorem c1_amended_roundtrip_without_fences (text : List Char) (cs : List (List Char))
    (h0 : countFences text = 0) (hs : split_message text = some cs) :
    cs.flatten = text := by
  unfold split_message at hs
  by_cases h1 : text.length ≤ DISCORD_MAX
  · rw [if_pos h1] at hs
    injection hs with hs
    subst hs
    simp
  · rw [if_neg h1] at hs
    simpa using splitLoop_flatten _ _ _ _ h0 hs

/-- C1 witness: a fence-free 2500-character input splits into two chunks whose
concatenation is the original input. -/
theorem c1_witness :
    ([List.replicate 1980 'a', List.replicate 520 'a'] : List (List Char)).flatten
      = List.replicate 2500 'a' := by
  have hs : split_message (List.replicate 2500 'a')
      = some [List.replicate 1980 'a', List.replicate 520 'a'] := by
    have h := split_message_replicate 'a' 2500 (by decide) (by decide)
      (by norm_num [DISCORD_MAX]) (by norm_num [SAFE_MAX, DISCORD_MAX])
    rw [SAFE_MAX_eq] at h
    norm_num at h
    exact h
  exact c1_amended_roundtrip_without_fences _ _
    (countFences_eq_zero_of_not_mem _
      (fun hm => absurd (List.mem_replicate.mp hm).2 (by decide))) hs

/-- C1 counterexample: on `c1In` (a split point inside an open fenced block)
the splitter inserts a closing and a reopening fence, so the concatenation of
the returned chunks is not the original input. -/
theorem c1_counterexample :
    split_message c1In = some [c1Out1, c1Out2] ∧
    ([c1Out1, c1Out2] : List (List Char)).flatten ≠ c1In := by
  refine ⟨c1In_split, fun h => ?_⟩
  have hl1 : c1Out1.length = 1984 := by
    unfold c1Out1
    rw [List.length_append, List.length_cons, List.length_cons, List.length_cons,
      List.length_cons, List.length_replicate]
    rfl
  have hl2 : c1Out2.length = 128 := by
    unfold c1Out2
    rw [List.length_append, List.length_cons, List.length_replicate]
    rfl
  have hl3 : c1In.length = 2104 := by
    unfold c1In
    rw [List.length_cons, List.length_cons, List.length_cons, List.length_cons,
      List.length_replicate]
  have hl := congrArg List.length h
  rw [List.flatten_cons, List.flatten_cons, List.flatten_nil, List.append_nil,
    List.length_append, hl1, hl2, hl3] at hl
  exact absurd hl (by norm_num)

/-- C5 (amended): every chunk except possibly the final one contains an even
(balanced) count of triple-backtick fence markers. -/
theorem c5_amended_nonfinal_chunks_balanced (text : List Char) (cs : List (List Char))
    (heven : countFences text % 2 = 0) (hs : split_message text = some cs) :
    ∀ c ∈ cs.dropLast, countFences c % 2 = 0 := by
  unfold split_message at hs
  by_cases h1 : text.length ≤ DISCORD_MAX
  · rw [if_pos h1] at hs
    injection hs with hs
    subst hs
    simp
  · rw [if_neg h1] at hs
    exact splitLoop_dropLast_even _ _ _ _ hs (by simp)

/-- C5 witness: on a balanced 2300-character input the non-final chunk has a
balanced fence count. -/
theorem c5_witness : countFences (List.replicate 1980 'x') % 2 = 0 := by
  have hs : split_message (List.replicate 2300 'x')
      = some [List.replicate 1980 'x', List.replicate 320 'x'] := by
    have h := split_message_replicate 'x' 2300 (by decide) (by decide)
      (by norm_num [DISCORD_MAX]) (by norm_num [SAFE_MAX, DISCORD_MAX])
    rw [SAFE_MAX_eq] at h
    norm_num at h
    exact h
  refine c5_amended_nonfinal_chunks_balanced (List.replicate 2300 'x') _ ?_ hs
    (List.replicate 1980 'x') (by simp)
  rw [countFences_eq_zero_of_not_mem _
    (fun hm => absurd (List.mem_replicate.mp hm).2 (by decide))]

/-- C5 counterexample: `c5In` has an even total fence count (2), but the
split point falls inside a run of six backticks and the final chunk ends up
with an odd (unbalanced) fence count. -/
theorem c5_counterexample :
    countFences c5In % 2 = 0 ∧
    split_message c5In = some [c5Out1, c5Out2] ∧
    countFences c5Out2 % 2 = 1 := by
  refine ⟨?_, c5In_split, ?_⟩
  · rw [c5In_fences]
  · rw [c5Out2_fences]

/-- C10: the split point never exceeds `SAFE_MAX` (the limit minus the
20-character reserve), fence repair appends at most 4 characters to a chunk,
and every chunk returned by `split_message` has length at most `DISCORD_MAX`. -/
theorem c10_chunk_length_bound :
    (∀ t : List Char, findSplitPoint t ≤ SAFE_MAX) ∧
    (∀ c r : List Char, (fixCodeBlocks c r).1.length ≤ c.length + 4) ∧
    ∀ (text : List Char) (cs : List (List Char)), split_message text = some cs →
      ∀ c ∈ cs, c.length ≤ DISCORD_MAX := by
  refine ⟨findSplitPoint_le, fixCodeBlocks_fst_length, ?_⟩
  intro text cs hs
  unfold split_message at hs
  by_cases h1 : text.length ≤ DISCORD_MAX
  · rw [if_pos h1] at hs
    injection hs with hs
    subst hs
    intro c hc
    rw [List.mem_singleton.mp hc]
    exact h1
  · rw [if_neg h1] at hs
    exact splitLoop_length_le _ _ _ _ hs (by simp)

/-- C10 witness: the first chunk of a concrete 2047-character input is within
the transport limit. -/
theorem c10_witness : (List.replicate 1980 'b' : List Char).length ≤ DISCORD_MAX := by
  have hs : split_message (List.replicate 2047 'b')
      = some [List.replicate 1980 'b', List.replicate 67 'b'] := by
    have h := split_message_replicate 'b' 2047 (by decide) (by decide)
      (by norm_num [DISCORD_MAX]) (by norm_num [SAFE_MAX, DISCORD_MAX])
    rw [SAFE_MAX_eq] at h
    norm_num at h
    exact h
  exact c10_chunk_length_bound.2.2 (List.replicate 2047 'b') _ hs
    (List.replicate 1980 'b') (by simp)

/-! ### claude_runner.py: `_parse_output` and `run`

Python values parsed from JSON are modelled by `JVal`; `json.loads` is kept
abstract as a parameter `jsonLoads` (returning `Except Unit JVal`, with
`Except.error` standing for `json.JSONDecodeError`), and Python's `str()`
on a parsed value as a parameter `pyStr`.  Exceptions escaping the modelled
code are `Except.error` values of type `PyErr`. -/

/-- A parsed JSON value (Python object produced by `json.loads`). -/
inductive JVal where
  | jnull : JVal
  | jbool (b : Bool) : JVal
  | jnum (q : ℚ) : JVal
  | jstr (s : List Char) : JVal
  | jarr (elems : List JVal) : JVal
  | jobj (fields : List (List Char × JVal)) : JVal

/-- Exceptions that the modelled runner code can raise. -/
inductive PyErr where
  | attributeError : PyErr
  | typeError : PyErr
deriving DecidableEq

/-- Python truthiness of a parsed JSON value. -/
def pyTruthy : JVal → Bool
  | .jnull => false
  | .jbool b => b
  | .jnum q => q ≠ 0
  | .jstr s => ¬s.isEmpty
  | .jarr elems => ¬elems.isEmpty
  | .jobj fields => ¬fields.isEmpty

/-- Python `a or b` on parsed JSON values. -/
def pyOr (a b : JVal) : JVal := if pyTruthy a then a else b

/-- Python `dict.get(key, default)` on a parsed JSON object's fields. -/
def objGet (fields : List (List Char × JVal)) (key : List Char) (dflt : JVal) : JVal :=
  match fields with
  | [] => dflt
  | (k, v) :: rest => if k = key then v else objGet rest key dflt

/-- First binding of `key` among the fields, if any (`key in dict` view). -/
def jfield (fields : List (List Char × JVal)) (key : List Char) : Option JVal :=
  match fields with
  | [] => none
  | (k, v) :: rest => if k = key then some v else jfield rest key

theorem objGet_eq_jfield (fields : List (List Char × JVal)) (key : List Char)
    (dflt : JVal) : objGet fields key dflt = (jfield fields key).getD dflt := by
  induction fields with
  | nil => rfl
  | cons kv rest ih =>
    rw [objGet, jfield]
    by_cases h : kv.1 = key
    · rw [if_pos h, if_pos h]
      rfl
    · rw [if_neg h, if_neg h, ih]

/-- Python `x or ""` for an optional string (`fallback_session_id or ""`). -/
def orEmptyStr : Option (List Char) → List Char
  | some s => if s.isEmpty then [] else s
  | none => []

/-- `not raw.strip()`: true iff the string is empty or all whitespace. -/
def isBlank (l : List Char) : Bool := l.all isPySpace

/-- Python `raw[start:stop]` for `0 ≤ start < stop` (the only use here). -/
def pySlice (l : List Char) (start stop : Int) : List Char :=
  (l.take stop.toNat).drop start.toNat

/-- `raw.find("\x7b")` as an integer index (`-1` if absent). -/
def braceStart (raw : List Char) : Int :=
  match firstIdxOf '{' raw with
  | some i => i
  | none => -1

/-- `raw.rfind("\x7d") + 1` as an integer index (`0` if absent). -/
def braceStop (raw : List Char) : Int :=
  (match lastIdxOf '}' raw with
  | some i => (i : Int)
  | none => -1) + 1

/-- Python `v / d` for a float divisor: numbers and booleans divide, anything
else raises `TypeError`. -/
def pyDivFloat (v : JVal) (d : ℚ) : Except PyErr ℚ :=
  match v with
  | .jnum q => .ok (q / d)
  | .jbool b => .ok ((if b then (1 : ℚ) else 0) / d)
  | _ => .error .typeError

/-- The `ClaudeResponse` dataclass as `_parse_output` actually populates it:
on the JSON path each field receives whatever value the parsed object held,
so the dynamic fields are `JVal`s. -/
structure PyResponse where
  text : JVal
  session_id : JVal
  cost_usd : JVal
  duration_secs : ℚ
  is_error : JVal

/-- `"(No response from Claude)"`. -/
def noResponseText : List Char := "(No response from Claude)".toList

/-- Field extraction from a successfully parsed JSON value (the tail of
`_parse_output`); `data.get` on a non-object raises `AttributeError`. -/
def extractFields (pyStr : JVal → List Char) (data : JVal)
    (fallback : Option (List Char)) : Except PyErr PyResponse :=
  match data with
  | .jobj fields =>
    let result_text :=
      objGet fields "result".toList (objGet fields "text".toList (.jstr (pyStr data)))
    let session_id_val := objGet fields "session_id".toList (.jstr (orEmptyStr fallback))
    let cost_usd :=
      pyOr (objGet fields "total_cost_usd".toList
        (objGet fields "cost_usd".toList (.jnum 0))) (.jnum 0)
    let duration_ms := pyOr (objGet fields "duration_ms".toList (.jnum 0)) (.jnum 0)
    let is_error := objGet fields "is_error".toList (.jbool false)
    match pyDivFloat duration_ms 1000 with
    | .ok dur => .ok ⟨result_text, session_id_val, cost_usd, dur, is_error⟩
    | .error e => .error e
  | _ => .error .attributeError

/-- `ClaudeRunner._parse_output`. -/
def parseOutput (pyStr : JVal → List Char) (jsonLoads : List Char → Except Unit JVal)
    (raw : List Char) (fallback : Option (List Char)) : Except PyErr PyResponse :=
  if isBlank raw then
    .ok ⟨.jstr noResponseText, .jstr (orEmptyStr fallback), .jnum 0, 0, .jbool true⟩
  else
    match jsonLoads raw with
    | .ok data => extractFields pyStr data fallback
    | .error _ =>
      if 0 ≤ braceStart raw ∧ braceStart raw < braceStop raw then
        match jsonLoads (pySlice raw (braceStart raw) (braceStop raw)) with
        | .ok data => extractFields pyStr data fallback
        | .error _ =>
          .ok ⟨.jstr (raw.take 2000), .jstr (orEmptyStr fallback), .jnum 0, 0, .jbool false⟩
      else
        .ok ⟨.jstr (raw.take 2000), .jstr (orEmptyStr fallback), .jnum 0, 0, .jbool false⟩

/-- How the awaited subprocess call can go: normal completion with captured
stdout/stderr, `TimeoutError` from `wait_for`, `FileNotFoundError` from
process creation, or any other exception with message `msg`. -/
inductive RunOutcome where
  | success (stdoutRaw stderrRaw : List Char) : RunOutcome
  | timeout : RunOutcome
  | notFound : RunOutcome
  | failure (msg : List Char) : RunOutcome

/-- Result of one `ClaudeRunner.run` call: the response, the final state of
`_running_procs` (as the set of registered channel ids), and whether
`proc.kill()` was called. -/
structure RunResult where
  resp : PyResponse
  procs : List Int
  killed : Bool

/-- `self._running_procs[channel_id] = proc` (key set view). -/
def regAdd (procs : List Int) (ch : Int) : List Int :=
  if ch ∈ procs then procs else ch :: procs

/-- `self._running_procs.pop(channel_id, None)` (key set view; dict keys are
unique, so removing every copy is the same as removing the entry). -/
def regPop (procs : List Int) (ch : Int) : List Int :=
  procs.filter (fun c => c != ch)

/-- The timeout error message, with the configured timeout interpolated. -/
def timeoutText (secs : Int) : List Char :=
  "Claude CLI가 ".toList ++ (toString secs).toList
    ++ "초 내에 응답하지 않아 중단했습니다.".toList

/-- The `FileNotFoundError` message. -/
def notFoundText : List Char :=
  "Claude CLI를 찾을 수 없습니다. `claude`가 PATH에 있는지 확인하세요.".toList

/-- The generic launch-failure message. -/
def failText (msg : List Char) : List Char :=
  "Failed to run Claude CLI: ".toList ++ msg

/-- `ClaudeRunner.run` (the control flow after `_build_command`): subprocess
registration, the four `try`/`except` outcomes, stdout/stderr selection, and
parsing.  An `Except.error` result is an exception escaping `run`. -/
def runModel (pyStr : JVal → List Char) (jsonLoads : List Char → Except Unit JVal)
    (outcome : RunOutcome) (channelId : Int) (sessionId : Option (List Char))
    (timeoutSecs : Int) (procs0 : List Int) : Except PyErr RunResult :=
  match outcome with
  | .timeout =>
    .ok ⟨⟨.jstr (timeoutText timeoutSecs), .jstr (orEmptyStr sessionId), .jnum 0,
      (timeoutSecs : ℚ), .jbool true⟩, regPop (regAdd procs0 channelId) channelId, true⟩
  | .notFound =>
    .ok ⟨⟨.jstr notFoundText, .jstr (orEmptyStr sessionId), .jnum 0, 0, .jbool true⟩,
      regPop procs0 channelId, false⟩
  | .failure msg =>
    .ok ⟨⟨.jstr (failText msg), .jstr (orEmptyStr sessionId), .jnum 0, 0, .jbool true⟩,
      regPop procs0 channelId, false⟩
  | .success stdoutRaw stderrRaw =>
    let raw := if ¬isBlank stdoutRaw then stdoutRaw else stderrRaw
    match parseOutput pyStr jsonLoads raw sessionId with
    | .ok resp => .ok ⟨resp, regPop (regAdd procs0 channelId) channelId, false⟩
    | .error e => .error e

/-! ### Claims C2, C3, C4, C6: the runner -/

/-- A `str()` model that is never consulted in the concrete runs below. -/
def pyStrEmpty : JVal → List Char := fun _ => []

/-- A `json.loads` model that rejects every input. -/
def cErrLoader : List Char → Except Unit JVal := fun _ => .error ()

/-- A `json.loads` model for the valid JSON array `[1, 2]`. -/
def c2Loader : List Char → Except Unit JVal := fun s =>
  if s = "[1, 2]".toList then .ok (.jarr [.jnum 1, .jnum 2]) else .error ()

/-- C2: `run` does not always return a response: when the CLI prints valid
JSON that is not an object (here the array `[1, 2]`), `_parse_output` calls
`data.get` on a list and an `AttributeError` escapes `run`. -/
theorem c2_run_raises_on_array_json :
    runModel pyStrEmpty c2Loader (.success "[1, 2]".toList []) 42 none 300 []
      = .error .attributeError := rfl

/-- C3 (amended): for every raw output containing at least one non-whitespace
character that fails full-document JSON parsing, and whose bracketed
`\x7b...\x7d` candidate substring (when one exists) also fails to parse,
`_parse_output` returns a non-error response whose text is the raw output
truncated to 2000 characters, with cost 0 and duration 0. -/
theorem c3_amended_degraded_plain_text (pyStr : JVal → List Char)
    (jsonLoads : List Char → Except Unit JVal) (raw : List Char)
    (fallback : Option (List Char))
    (hblank : isBlank raw = false)
    (hfull : jsonLoads raw = .error ())
    (hsub : 0 ≤ braceStart raw ∧ braceStart raw < braceStop raw →
      jsonLoads (pySlice raw (braceStart raw) (braceStop raw)) = .error ()) :
    parseOutput pyStr jsonLoads raw fallback
      = .ok ⟨.jstr (raw.take 2000), .jstr (orEmptyStr fallback), .jnum 0, 0,
          .jbool false⟩ := by
  unfold parseOutput
  rw [if_neg (by simp [hblank]), hfull]
  by_cases hb : 0 ≤ braceStart raw ∧ braceStart raw < braceStop raw
  · rw [if_pos hb, hsub hb]
  · rw [if_neg hb]

/-- C3 witness: plain text `"hi"` with a fallback session id yields the
degraded non-error response. -/
theorem c3_witness :
    isBlank "hi".toList = false ∧
    parseOutput pyStrEmpty cErrLoader "hi".toList (some "s".toList)
      = .ok ⟨.jstr "hi".toList, .jstr "s".toList, .jnum 0, 0, .jbool false⟩ := by
  refine ⟨rfl, ?_⟩
  exact c3_amended_degraded_plain_text pyStrEmpty cErrLoader "hi".toList
    (some "s".toList) rfl rfl (fun _ => rfl)

/-- C3 counterexample: the single-space raw output is non-empty, unparseable
and brace-free, yet `_parse_output` returns the `is_error = true` no-response
marker instead of the non-error truncated raw text; the same holds for the
non-ASCII whitespace raw output U+00A0, which `str.strip()` also removes. -/
theorem c3_counterexample :
    ([' '] : List Char) ≠ [] ∧
    cErrLoader [' '] = .error () ∧
    braceStart [' '] = -1 ∧
    parseOutput pyStrEmpty cErrLoader [' '] none
      = .ok ⟨.jstr noResponseText, .jstr [], .jnum 0, 0, .jbool true⟩ ∧
    noResponseText ≠ ([' '] : List Char).take 2000 ∧
    (['\xa0'] : List Char) ≠ [] ∧
    isBlank ['\xa0'] = true ∧
    parseOutput pyStrEmpty cErrLoader ['\xa0'] none
      = .ok ⟨.jstr noResponseText, .jstr [], .jnum 0, 0, .jbool true⟩ :=
  ⟨by decide, rfl, rfl, rfl, by decide, by decide, rfl, rfl⟩

/-- C4 (amended): on a successfully parsed JSON object, the cost is taken
from `total_cost_usd`, falling back (when that key is missing) to `cost_usd`,
falling back to 0; `null` (and other falsy) values are treated as 0; but a
negative cost is passed through unchanged, not clamped. -/
theorem c4_amended_cost_extraction (pyStr : JVal → List Char)
    (jsonLoads : List Char → Except Unit JVal) (raw : List Char)
    (fallback : Option (List Char)) (fields : List (List Char × JVal))
    (r : PyResponse)
    (hload : jsonLoads raw = .ok (.jobj fields))
    (hblank : isBlank raw = false)
    (hparse : parseOutput pyStr jsonLoads raw fallback = .ok r) :
    (∀ q : ℚ, jfield fields "total_cost_usd".toList = some (.jnum q) → q ≠ 0 →
      r.cost_usd = .jnum q) ∧
    (jfield fields "total_cost_usd".toList = some .jnull → r.cost_usd = .jnum 0) ∧
    (jfield fields "total_cost_usd".toList = none →
      ∀ q : ℚ, jfield fields "cost_usd".toList = some (.jnum q) → q ≠ 0 →
        r.cost_usd = .jnum q) ∧
    (jfield fields "total_cost_usd".toList = none →
      jfield fields "cost_usd".toList = some .jnull → r.cost_usd = .jnum 0) ∧
    (jfield fields "total_cost_usd".toList = none →
      jfield fields "cost_usd".toList = none → r.cost_usd = .jnum 0) := by
  have hcost : r.cost_usd = pyOr (objGet fields "total_cost_usd".toList
      (objGet fields "cost_usd".toList (.jnum 0))) (.jnum 0) := by
    unfold parseOutput at hparse
    rw [if_neg (by simp [hblank]), hload] at hparse
    dsimp only at hparse
    unfold extractFields at hparse
    dsimp only at hparse
    cases hdiv : pyDivFloat (pyOr (objGet fields "duration_ms".toList (.jnum 0))
        (.jnum 0)) 1000 with
    | ok dur =>
      rw [hdiv] at hparse
      dsimp only at hparse
      injection hparse with hparse
      rw [← hparse]
    | error e =>
      rw [hdiv] at hparse
      exact absurd hparse (by simp)
  refine ⟨?_, ?_, ?_, ?_, ?_⟩
  · intro q hq hq0
    rw [hcost, objGet_eq_jfield, hq]
    simp [pyOr, pyTruthy, hq0]
  · intro hq
    rw [hcost, objGet_eq_jfield, hq]
    simp [pyOr, pyTruthy]
  · intro hnone q hq hq0
    rw [hcost, objGet_eq_jfield, hnone, objGet_eq_jfield, hq]
    simp [pyOr, pyTruthy, hq0]
  · intro hnone hq
    rw [hcost, objGet_eq_jfield, hnone, objGet_eq_jfield, hq]
    simp [pyOr, pyTruthy]
  · intro hnone hq
    rw [hcost, objGet_eq_jfield, hnone, objGet_eq_jfield, hq]
    simp [pyOr, pyTruthy]

/-- A `json.loads` model for `\x7b"total_cost_usd": 2\x7d`. -/
def c4wLoader : List Char → Except Unit JVal := fun s =>
  if s = "\x7b\"total_cost_usd\": 2\x7d".toList
  then .ok (.jobj [("total_cost_usd".toList, .jnum 2)]) else .error ()

/-- C4 witness: a concrete object with `total_cost_usd = 2` yields cost 2
(the missing `duration_ms` becomes `0 / 1000 = 0` seconds). -/
theorem c4_witness :
    c4wLoader "\x7b\"total_cost_usd\": 2\x7d".toList
      = .ok (.jobj [("total_cost_usd".toList, .jnum 2)]) ∧
    isBlank "\x7b\"total_cost_usd\": 2\x7d".toList = false ∧
    parseOutput pyStrEmpty c4wLoader "\x7b\"total_cost_usd\": 2\x7d".toList none
      = .ok ⟨.jstr [], .jstr [], .jnum 2, 0 / 1000, .jbool false⟩ ∧
    ((0 : ℚ) / 1000 = 0) ∧
    (⟨.jstr [], .jstr [], .jnum 2, 0 / 1000, .jbool false⟩ : PyResponse).cost_usd
      = .jnum 2 := by
  refine ⟨rfl, rfl, rfl, by norm_num, ?_⟩
  exact (c4_amended_cost_extraction pyStrEmpty c4wLoader
    "\x7b\"total_cost_usd\": 2\x7d".toList none
    [("total_cost_usd".toList, .jnum 2)]
    ⟨.jstr [], .jstr [], .jnum 2, 0 / 1000, .jbool false⟩ rfl rfl rfl).1
    2 rfl (by norm_num)

/-- A `json.loads` model for `\x7b"total_cost_usd": -1\x7d`. -/
def c4Loader : List Char → Except Unit JVal := fun s =>
  if s = "\x7b\"total_cost_usd\": -1\x7d".toList
  then .ok (.jobj [("total_cost_usd".toList, .jnum (-1))]) else .error ()

/-- C4 counterexample: a parsed object reporting `total_cost_usd = -1`
produces a response whose cost is the negative value `-1`, so the returned
cost can be negative. -/
theorem c4_counterexample :
    parseOutput pyStrEmpty c4Loader "\x7b\"total_cost_usd\": -1\x7d".toList none
      = .ok ⟨.jstr [], .jstr [], .jnum (-1), 0 / 1000, .jbool false⟩ ∧
    ((-1 : ℚ) < 0) ∧ ((0 : ℚ) / 1000 = 0) :=
  ⟨rfl, by norm_num, by norm_num⟩

/-- C6: on timeout, `run` kills the process, removes the channel's registry
entry, and returns an error response whose session id is the caller-supplied
one (empty when none), whose duration equals the configured timeout, and
whose error flag is set. -/
theorem c6_timeout_contract (pyStr : JVal → List Char)
    (jsonLoads : List Char → Except Unit JVal) (ch : Int)
    (sid : Option (List Char)) (t : Int) (procs : List Int) :
    runModel pyStr jsonLoads .timeout ch sid t procs
      = .ok ⟨⟨.jstr (timeoutText t), .jstr (orEmptyStr sid), .jnum 0, (t : ℚ),
          .jbool true⟩, regPop (regAdd procs ch) ch, true⟩
    ∧ ch ∉ regPop (regAdd procs ch) ch
    ∧ orEmptyStr none = ([] : List Char) := by
  refine ⟨rfl, ?_, rfl⟩
  simp [regPop, List.mem_filter]

/-! ### session_store.py

The mutable `dict[int, Session]` is modelled as an association list with
unique keys; object mutation becomes in-place replacement of the entry, and
`datetime.now()` becomes an explicit `now : Nat` argument. -/

/-- The `Session` dataclass. -/
structure Session where
  session_id : Option (List Char) := none
  model : List Char := "sonnet".toList
  system_prompt : Option (List Char) := none
  total_cost_usd : ℚ := 0
  turn_count : Nat := 0
  created_at : Nat := 0
  last_used : Nat := 0
  history : List (List Char × List Char) := []
deriving DecidableEq

/-- `SessionStore`: the `_sessions` dict and the configured default model. -/
structure SessionStore where
  sessions : List (Int × Session)
  default_model : List Char
deriving DecidableEq

/-- First value bound to `k`, if any (`dict` lookup under unique keys). -/
def alookup {α : Type} : List (Int × α) → Int → Option α
  | [], _ => none
  | (k, v) :: rest, key => if k = key then some v else alookup rest key

/-- `dict` assignment: replace the first binding of `k`, else append. -/
def aupsert {α : Type} : List (Int × α) → Int → α → List (Int × α)
  | [], key, v => [(key, v)]
  | (k, w) :: rest, key, v =>
    if k = key then (key, v) :: rest else (k, w) :: aupsert rest key v

/-- `dict.pop(k, None)`: drop the binding of `k` (all copies; under the
unique-key invariant this is the single entry). -/
def aremove {α : Type} (l : List (Int × α)) (k : Int) : List (Int × α) :=
  l.filter (fun p => p.1 != k)

/-- `Session(model=self._default_model)` with `datetime.now()` = `now`. -/
def freshSession (model : List Char) (now : Nat) : Session :=
  { model := model, created_at := now, last_used := now }

/-- `SessionStore.get`: create-if-absent, then return the entry. -/
def getSession (st : SessionStore) (cid : Int) (now : Nat) : Session × SessionStore :=
  match alookup st.sessions cid with
  | some s => (s, st)
  | none =>
    let s := freshSession st.default_model now
    (s, { st with sessions := aupsert st.sessions cid s })

/-- `SessionStore.reset`. -/
def resetStore (st : SessionStore) (cid : Int) : SessionStore :=
  { st with sessions := aremove st.sessions cid }

/-- `SessionStore.update_after_response`. -/
def updateAfterResponse (st : SessionStore) (cid : Int) (sid : List Char)
    (cost : ℚ) (now : Nat) : SessionStore :=
  let p := getSession st cid now
  let s := { p.1 with
    session_id := some sid
    total_cost_usd := p.1.total_cost_usd + cost
    turn_count := p.1.turn_count + 1
    last_used := now }
  { p.2 with sessions := aupsert p.2.sessions cid s }

/-- `SessionStore.add_history` (user message truncated to 200 characters). -/
def addHistory (st : SessionStore) (cid : Int) (userMsg botMsg : List Char)
    (now : Nat) : SessionStore :=
  let p := getSession st cid now
  let s := { p.1 with history := p.1.history ++ [(userMsg.take 200, botMsg)] }
  { p.2 with sessions := aupsert p.2.sessions cid s }

/-- `SessionStore.total_cost`. -/
def totalCost (st : SessionStore) : ℚ :=
  (st.sessions.map (fun p => p.2.total_cost_usd)).sum

/-- `SessionStore()` with a default model. -/
def emptyStore (dm : List Char) : SessionStore := ⟨[], dm⟩

/-! #### Association-list facts -/

theorem alookup_aupsert_self {α : Type} (l : List (Int × α)) (k : Int) (v : α) :
    alookup (aupsert l k v) k = some v := by
  induction l with
  | nil => simp [aupsert, alookup]
  | cons kv rest ih =>
    obtain ⟨a, w⟩ := kv
    by_cases h : a = k
    · subst h
      simp [aupsert, alookup]
    · simp [aupsert, alookup, h, ih]

theorem alookup_aupsert_ne {α : Type} (l : List (Int × α)) (k k' : Int) (v : α)
    (hne : k' ≠ k) : alookup (aupsert l k v) k' = alookup l k' := by
  have hkk' : ¬k = k' := fun h => hne h.symm
  induction l with
  | nil => simp [aupsert, alookup, hkk']
  | cons kv rest ih =>
    obtain ⟨a, w⟩ := kv
    by_cases h : a = k
    · subst h
      simp [aupsert, alookup, hkk']
    · simp [aupsert, alookup, h, ih]

theorem alookup_aremove_self {α : Type} (l : List (Int × α)) (k : Int) :
    alookup (aremove l k) k = none := by
  induction l with
  | nil => rfl
  | cons kv rest ih =>
    obtain ⟨a, w⟩ := kv
    by_cases h : a = k
    · subst h
      simpa [aremove, List.filter_cons] using ih
    · simpa [aremove, List.filter_cons, h, alookup] using ih

theorem alookup_aremove_ne {α : Type} (l : List (Int × α)) (k k' : Int)
    (hne : k' ≠ k) : alookup (aremove l k) k' = alookup l k' := by
  have hkk' : ¬k = k' := fun h => hne h.symm
  induction l with
  | nil => rfl
  | cons kv rest ih =>
    obtain ⟨a, w⟩ := kv
    by_cases h : a = k
    · subst h
      simpa [aremove, List.filter_cons, alookup, hkk'] using ih
    · have hstep : aremove ((a, w) :: rest) k = (a, w) :: aremove rest k := by
        simp [aremove, List.filter_cons, h]
      rw [hstep]
      simp only [alookup]
      rw [ih]

theorem getSession_of_lookup_some (st : SessionStore) (cid : Int) (now : Nat)
    (s : Session) (h : alookup st.sessions cid = some s) :
    getSession st cid now = (s, st) := by
  unfold getSession
  rw [h]

theorem getSession_of_lookup_none (st : SessionStore) (cid : Int) (now : Nat)
    (h : alookup st.sessions cid = none) :
    getSession st cid now =
      (freshSession st.default_model now,
        { st with
          sessions := aupsert st.sessions cid (freshSession st.default_model now) }) := by
  unfold getSession
  rw [h]

/-! ### Claim C8: `get` / `reset` -/

/-- C8: `get` twice with the same key and no intervening `reset` returns the
same session and leaves the store unchanged between the calls (the shallow
rendering of "the same mutable object"); after a `reset` of that key the
next `get` returns a fresh default session with `turn_count = 0`. -/
theorem c8_get_get_reset (st : SessionStore) (cid : Int) (n1 n2 n3 : Nat) :
    ((getSession (getSession st cid n1).2 cid n2).1 = (getSession st cid n1).1
      ∧ (getSession (getSession st cid n1).2 cid n2).2 = (getSession st cid n1).2)
    ∧ (getSession (resetStore (getSession st cid n1).2 cid) cid n3).1
        = freshSession st.default_model n3
    ∧ (getSession (resetStore (getSession st cid n1).2 cid) cid n3).1.turn_count
        = 0 := by
  cases h0 : alookup st.sessions cid with
  | some s =>
    rw [getSession_of_lookup_some st cid n1 s h0]
    dsimp only
    rw [getSession_of_lookup_some st cid n2 s h0,
      getSession_of_lookup_none _ _ n3 (alookup_aremove_self _ _)]
    exact ⟨⟨rfl, rfl⟩, rfl, rfl⟩
  | none =>
    rw [getSession_of_lookup_none st cid n1 h0]
    dsimp only
    rw [getSession_of_lookup_some _ cid n2 _ (alookup_aupsert_self _ _ _),
      getSession_of_lookup_none _ _ n3 (alookup_aremove_self _ _)]
    exact ⟨⟨rfl, rfl⟩, rfl, rfl⟩

/-! ### Claim C9: `total_cost` over op sequences

A run of the store is a list of `update_after_response` / `reset` calls
applied to an initially empty store. -/

/-- One store operation. -/
inductive StoreOp where
  | update (cid : Int) (sid : List Char) (cost : ℚ) (now : Nat) : StoreOp
  | reset (cid : Int) : StoreOp

/-- The channel an operation touches. -/
def opChannel : StoreOp → Int
  | .update cid _ _ _ => cid
  | .reset cid => cid

/-- Apply one operation. -/
def applyOp (st : SessionStore) : StoreOp → SessionStore
  | .update cid sid cost now => updateAfterResponse st cid sid cost now
  | .reset cid => resetStore st cid

/-- Apply a sequence of operations to the empty store. -/
def applyOps (dm : List Char) (ops : List StoreOp) : SessionStore :=
  ops.foldl applyOp (emptyStore dm)

/-- Specification-side per-channel accumulator: updates add their cost,
a reset zeroes the channel. -/
def accrueStep (cid : Int) (acc : ℚ) : StoreOp → ℚ
  | .update c _ cost _ => if c = cid then acc + cost else acc
  | .reset c => if c = cid then 0 else acc

/-- The cost a channel has accrued since its last reset. -/
def accrued (ops : List StoreOp) (cid : Int) : ℚ :=
  ops.foldl (accrueStep cid) 0

/-- Collect the distinct channels of a sequence, in first-touch order. -/
def chanStep (acc : List Int) (op : StoreOp) : List Int :=
  if opChannel op ∈ acc then acc else acc ++ [opChannel op]

/-- The distinct channels an op sequence touches. -/
def opChannels (ops : List StoreOp) : List Int :=
  ops.foldl chanStep []

/-- Sum of the stored per-session costs (the body of `total_cost`). -/
def sessionsCost (l : List (Int × Session)) : ℚ :=
  (l.map (fun p => p.2.total_cost_usd)).sum

/-- The cost stored for key `k` (0 when absent). -/
def lookupCost (l : List (Int × Session)) (k : Int) : ℚ :=
  ((alookup l k).map (fun s => s.total_cost_usd)).getD 0

theorem totalCost_eq_sessionsCost (st : SessionStore) :
    totalCost st = sessionsCost st.sessions := rfl

theorem accrued_append (ops : List StoreOp) (op : StoreOp) (cid : Int) :
    accrued (ops ++ [op]) cid = accrueStep cid (accrued ops cid) op := by
  unfold accrued
  rw [List.foldl_append]
  rfl

theorem opChannels_append (ops : List StoreOp) (op : StoreOp) :
    opChannels (ops ++ [op]) = chanStep (opChannels ops) op := by
  unfold opChannels
  rw [List.foldl_append]
  rfl

theorem mem_chanStep (acc : List Int) (op : StoreOp) (x : Int) :
    x ∈ chanStep acc op ↔ x ∈ acc ∨ x = opChannel op := by
  unfold chanStep
  by_cases h : opChannel op ∈ acc
  · rw [if_pos h]
    constructor
    · exact fun hx => Or.inl hx
    · rintro (hx | hx)
      · exact hx
      · rw [hx]; exact h
  · rw [if_neg h]
    simp

theorem opChannels_nodup (ops : List StoreOp) : (opChannels ops).Nodup := by
  suffices H : ∀ acc : List Int, acc.Nodup → (ops.foldl chanStep acc).Nodup from
    H [] List.nodup_nil
  induction ops with
  | nil => intro acc h; exact h
  | cons op rest ih =>
    intro acc h
    rw [List.foldl_cons]
    apply ih
    unfold chanStep
    by_cases hm : opChannel op ∈ acc
    · rw [if_pos hm]; exact h
    · rw [if_neg hm]
      simp [List.nodup_append, h, hm]

theorem accrued_eq_zero_of_not_mem (ops : List StoreOp) (cid : Int)
    (h : cid ∉ opChannels ops) : accrued ops cid = 0 := by
  induction ops using List.reverseRecOn with
  | nil => rfl
  | append_singleton ops op ih =>
    rw [opChannels_append, mem_chanStep] at h
    push_neg at h
    rw [accrued_append, ih h.1]
    match op with
    | .update c sid cost now =>
      have : c ≠ cid := fun hc => h.2 (by rw [← hc]; rfl)
      simp [accrueStep, this]
    | .reset c =>
      have : c ≠ cid := fun hc => h.2 (by rw [← hc]; rfl)
      simp [accrueStep, this]

theorem sum_map_congr (L : List Int) (f g : Int → ℚ)
    (h : ∀ x ∈ L, f x = g x) : (L.map f).sum = (L.map g).sum := by
  induction L with
  | nil => rfl
  | cons a rest ih =>
    rw [List.map_cons, List.map_cons, List.sum_cons, List.sum_cons,
      h a (List.mem_cons_self a rest), ih (fun x hx => h x (List.mem_cons_of_mem a hx))]

theorem sum_map_update_one (L : List Int) (f g : Int → ℚ) (cid : Int)
    (hnd : L.Nodup) (hmem : cid ∈ L) (h : ∀ x ∈ L, x ≠ cid → f x = g x) :
    (L.map f).sum = (L.map g).sum + (f cid - g cid) := by
  induction L with
  | nil => exact absurd hmem (List.not_mem_nil cid)
  | cons a rest ih =>
    have hnd2 := List.nodup_cons.mp hnd
    rcases List.mem_cons.mp hmem with hmem | hmem
    · subst hmem
      have hrest : ∀ x ∈ rest, f x = g x := fun x hx =>
        h x (List.mem_cons_of_mem _ hx) (fun he => hnd2.1 (he ▸ hx))
      rw [List.map_cons, List.map_cons, List.sum_cons, List.sum_cons,
        sum_map_congr rest f g hrest]
      ring
    · have hne : a ≠ cid := fun he => hnd2.1 (he ▸ hmem)
      rw [List.map_cons, List.map_cons, List.sum_cons, List.sum_cons,
        h a (List.mem_cons_self a rest) hne,
        ih hnd2.2 hmem (fun x hx hxne => h x (List.mem_cons_of_mem a hx) hxne)]
      ring

theorem sessionsCost_aupsert (l : List (Int × Session)) (k : Int) (v : Session) :
    sessionsCost (aupsert l k v) = sessionsCost l - lookupCost l k + v.total_cost_usd := by
  induction l with
  | nil =>
    show sessionsCost [(k, v)] = 0 - lookupCost [] k + v.total_cost_usd
    simp [sessionsCost, lookupCost, alookup]
  | cons kv rest ih =>
    obtain ⟨a, w⟩ := kv
    by_cases h : a = k
    · subst h
      show sessionsCost (aupsert ((a, w) :: rest) a v) = _
      rw [show aupsert ((a, w) :: rest) a v = (a, v) :: rest from by
        rw [aupsert, if_pos rfl]]
      show v.total_cost_usd + sessionsCost rest
        = (w.total_cost_usd + sessionsCost rest) - lookupCost ((a, w) :: rest) a
          + v.total_cost_usd
      rw [show lookupCost ((a, w) :: rest) a = w.total_cost_usd from by
        simp [lookupCost, alookup]]
      ring
    · rw [show aupsert ((a, w) :: rest) k v = (a, w) :: aupsert rest k v from by
        rw [aupsert, if_neg h]]
      show w.total_cost_usd + sessionsCost (aupsert rest k v)
        = (w.total_cost_usd + sessionsCost rest) - lookupCost ((a, w) :: rest) k
          + v.total_cost_usd
      rw [ih, show lookupCost ((a, w) :: rest) k = lookupCost rest k from by
        simp [lookupCost, alookup, h]]
      ring

theorem aremove_eq_self_of_not_mem (l : List (Int × Session)) (k : Int)
    (h : k ∉ l.map Prod.fst) : aremove l k = l := by
  unfold aremove
  rw [List.filter_eq_self]
  intro p hp
  simp only [bne_iff_ne, ne_eq]
  intro he
  exact h (he ▸ List.mem_map_of_mem Prod.fst hp)

theorem sessionsCost_aremove (l : List (Int × Session)) (k : Int)
    (hnd : (l.map Prod.fst).Nodup) :
    sessionsCost (aremove l k) = sessionsCost l - lookupCost l k := by
  induction l with
  | nil => simp [aremove, sessionsCost, lookupCost, alookup]
  | cons kv rest ih =>
    obtain ⟨a, w⟩ := kv
    rw [List.map_cons, List.nodup_cons] at hnd
    by_cases h : a = k
    · subst h
      rw [show aremove ((a, w) :: rest) a = aremove rest a from by
        simp [aremove, List.filter_cons]]
      rw [aremove_eq_self_of_not_mem rest a hnd.1]
      show sessionsCost rest
        = (w.total_cost_usd + sessionsCost rest) - lookupCost ((a, w) :: rest) a
      rw [show lookupCost ((a, w) :: rest) a = w.total_cost_usd from by
        simp [lookupCost, alookup]]
      ring
    · rw [show aremove ((a, w) :: rest) k = (a, w) :: aremove rest k from by
        simp [aremove, List.filter_cons, h]]
      show w.total_cost_usd + sessionsCost (aremove rest k)
        = (w.total_cost_usd + sessionsCost rest) - lookupCost ((a, w) :: rest) k
      rw [ih hnd.2, show lookupCost ((a, w) :: rest) k = lookupCost rest k from by
        simp [lookupCost, alookup, h]]
      ring

theorem mem_keys_aupsert (l : List (Int × Session)) (k : Int) (v : Session) (x : Int) :
    x ∈ (aupsert l k v).map Prod.fst ↔ x ∈ l.map Prod.fst ∨ x = k := by
  induction l with
  | nil => simp [aupsert]
  | cons kv rest ih =>
    obtain ⟨a, w⟩ := kv
    by_cases h : a = k
    · subst h
      rw [show aupsert ((a, w) :: rest) a v = (a, v) :: rest from by
        rw [aupsert, if_pos rfl]]
      simp only [List.map_cons, List.mem_cons]
      constructor
      · rintro (hx | hx)
        · exact Or.inr hx
        · exact Or.inl (Or.inr hx)
      · rintro ((hx | hx) | hx)
        · exact Or.inl hx
        · exact Or.inr hx
        · exact Or.inl hx
    · rw [show aupsert ((a, w) :: rest) k v = (a, w) :: aupsert rest k v from by
        rw [aupsert, if_neg h]]
      simp only [List.map_cons, List.mem_cons, ih]
      tauto

theorem nodup_keys_aupsert (l : List (Int × Session)) (k : Int) (v : Session)
    (hnd : (l.map Prod.fst).Nodup) : ((aupsert l k v).map Prod.fst).Nodup := by
  induction l with
  | nil => simp [aupsert]
  | cons kv rest ih =>
    obtain ⟨a, w⟩ := kv
    rw [List.map_cons, List.nodup_cons] at hnd
    by_cases h : a = k
    · subst h
      rw [show aupsert ((a, w) :: rest) a v = (a, v) :: rest from by
        rw [aupsert, if_pos rfl]]
      rw [List.map_cons, List.nodup_cons]
      exact ⟨hnd.1, hnd.2⟩
    · rw [show aupsert ((a, w) :: rest) k v = (a, w) :: aupsert rest k v from by
        rw [aupsert, if_neg h]]
      rw [List.map_cons, List.nodup_cons]
      refine ⟨?_, ih hnd.2⟩
      rw [mem_keys_aupsert]
      rintro (hx | hx)
      · exact hnd.1 hx
      · exact h hx

theorem keys_aremove_subset (l : List (Int × Session)) (k : Int) (x : Int)
    (h : x ∈ (aremove l k).map Prod.fst) : x ∈ l.map Prod.fst :=
  (List.Sublist.map Prod.fst (List.filter_sublist l)).mem h

theorem nodup_keys_aremove (l : List (Int × Session)) (k : Int)
    (hnd : (l.map Prod.fst).Nodup) : ((aremove l k).map Prod.fst).Nodup :=
  (List.Sublist.map Prod.fst (List.filter_sublist l)).nodup hnd

/-! #### Store-level cost lemmas -/

theorem lookupCost_update (st : SessionStore) (cid : Int) (sid : List Char)
    (cost : ℚ) (now : Nat) (x : Int) :
    lookupCost (updateAfterResponse st cid sid cost now).sessions x
      = if x = cid then lookupCost st.sessions cid + cost
        else lookupCost st.sessions x := by
  cases h0 : alookup st.sessions cid with
  | some s =>
    unfold updateAfterResponse
    rw [getSession_of_lookup_some st cid now s h0]
    dsimp only
    by_cases hx : x = cid
    · subst hx
      rw [if_pos rfl]
      unfold lookupCost
      rw [alookup_aupsert_self, h0]
      rfl
    · rw [if_neg hx]
      unfold lookupCost
      rw [alookup_aupsert_ne _ _ _ _ hx]
  | none =>
    unfold updateAfterResponse
    rw [getSession_of_lookup_none st cid now h0]
    dsimp only
    by_cases hx : x = cid
    · subst hx
      rw [if_pos rfl]
      unfold lookupCost
      rw [alookup_aupsert_self, h0]
      show (freshSession st.default_model now).total_cost_usd + cost = 0 + cost
      rfl
    · rw [if_neg hx]
      unfold lookupCost
      rw [alookup_aupsert_ne _ _ _ _ hx, alookup_aupsert_ne _ _ _ _ hx]

theorem lookupCost_reset (st : SessionStore) (cid : Int) (x : Int) :
    lookupCost (resetStore st cid).sessions x
      = if x = cid then 0 else lookupCost st.sessions x := by
  unfold resetStore lookupCost
  dsimp only
  by_cases hx : x = cid
  · subst hx
    rw [if_pos rfl, alookup_aremove_self]
    rfl
  · rw [if_neg hx, alookup_aremove_ne _ _ _ hx]

theorem totalCost_update (st : SessionStore) (cid : Int) (sid : List Char)
    (cost : ℚ) (now : Nat) :
    totalCost (updateAfterResponse st cid sid cost now) = totalCost st + cost := by
  cases h0 : alookup st.sessions cid with
  | some s =>
    unfold updateAfterResponse
    rw [getSession_of_lookup_some st cid now s h0]
    dsimp only
    rw [totalCost_eq_sessionsCost, totalCost_eq_sessionsCost]
    dsimp only
    rw [sessionsCost_aupsert]
    have : lookupCost st.sessions cid = s.total_cost_usd := by
      unfold lookupCost
      rw [h0]
      rfl
    rw [this]
    show sessionsCost st.sessions - s.total_cost_usd + (s.total_cost_usd + cost)
      = sessionsCost st.sessions + cost
    ring
  | none =>
    unfold updateAfterResponse
    rw [getSession_of_lookup_none st cid now h0]
    dsimp only
    rw [totalCost_eq_sessionsCost, totalCost_eq_sessionsCost]
    dsimp only
    rw [sessionsCost_aupsert, sessionsCost_aupsert]
    have h1 : lookupCost st.sessions cid = 0 := by
      unfold lookupCost
      rw [h0]
      rfl
    have h2 : lookupCost (aupsert st.sessions cid (freshSession st.default_model now))
        cid = 0 := by
      unfold lookupCost
      rw [alookup_aupsert_self]
      rfl
    rw [h1, h2]
    show sessionsCost st.sessions - 0 + (freshSession st.default_model now).total_cost_usd
        - 0 + ((freshSession st.default_model now).total_cost_usd + cost)
      = sessionsCost st.sessions + cost
    show sessionsCost st.sessions - 0 + 0 - 0 + (0 + cost)
      = sessionsCost st.sessions + cost
    ring

theorem totalCost_reset (st : SessionStore) (cid : Int)
    (hnd : (st.sessions.map Prod.fst).Nodup) :
    totalCost (resetStore st cid) = totalCost st - lookupCost st.sessions cid := by
  rw [totalCost_eq_sessionsCost, totalCost_eq_sessionsCost]
  unfold resetStore
  dsimp only
  exact sessionsCost_aremove st.sessions cid hnd

theorem nodup_keys_update (st : SessionStore) (cid : Int) (sid : List Char)
    (cost : ℚ) (now : Nat) (hnd : (st.sessions.map Prod.fst).Nodup) :
    ((updateAfterResponse st cid sid cost now).sessions.map Prod.fst).Nodup := by
  cases h0 : alookup st.sessions cid with
  | some s =>
    unfold updateAfterResponse
    rw [getSession_of_lookup_some st cid now s h0]
    exact nodup_keys_aupsert _ _ _ hnd
  | none =>
    unfold updateAfterResponse
    rw [getSession_of_lookup_none st cid now h0]
    exact nodup_keys_aupsert _ _ _ (nodup_keys_aupsert _ _ _ hnd)

theorem mem_keys_update (st : SessionStore) (cid : Int) (sid : List Char)
    (cost : ℚ) (now : Nat) (x : Int)
    (h : x ∈ (updateAfterResponse st cid sid cost now).sessions.map Prod.fst) :
    x ∈ st.sessions.map Prod.fst ∨ x = cid := by
  cases h0 : alookup st.sessions cid with
  | some s =>
    unfold updateAfterResponse at h
    rw [getSession_of_lookup_some st cid now s h0] at h
    exact (mem_keys_aupsert _ _ _ _).mp h
  | none =>
    unfold updateAfterResponse at h
    rw [getSession_of_lookup_none st cid now h0] at h
    rcases (mem_keys_aupsert _ _ _ _).mp h with h2 | h2
    · exact (mem_keys_aupsert _ _ _ _).mp h2
    · exact Or.inr h2

/-! #### Invariants of op sequences, and the total-cost theorem -/

theorem applyOps_append (dm : List Char) (ops : List StoreOp) (op : StoreOp) :
    applyOps dm (ops ++ [op]) = applyOp (applyOps dm ops) op := by
  unfold applyOps
  rw [List.foldl_append]
  rfl

theorem applyOps_nodup_keys (dm : List Char) (ops : List StoreOp) :
    ((applyOps dm ops).sessions.map Prod.fst).Nodup := by
  induction ops using List.reverseRecOn with
  | nil => exact List.nodup_nil
  | append_singleton ops op ih =>
    rw [applyOps_append]
    match op with
    | .update cid sid cost now => exact nodup_keys_update _ _ _ _ _ ih
    | .reset cid => exact nodup_keys_aremove _ _ ih

theorem applyOps_keys_sub_channels (dm : List Char) (ops : List StoreOp) (x : Int)
    (h : x ∈ (applyOps dm ops).sessions.map Prod.fst) : x ∈ opChannels ops := by
  induction ops using List.reverseRecOn generalizing x with
  | nil => exact absurd h (List.not_mem_nil x)
  | append_singleton ops op ih =>
    rw [applyOps_append] at h
    rw [opChannels_append, mem_chanStep]
    match op with
    | .update cid sid cost now =>
      rcases mem_keys_update _ _ _ _ _ _ h with h2 | h2
      · exact Or.inl (ih x h2)
      · exact Or.inr h2
    | .reset cid =>
      exact Or.inl (ih x (keys_aremove_subset _ _ _ h))

theorem applyOps_lookupCost (dm : List Char) (ops : List StoreOp) (x : Int) :
    lookupCost (applyOps dm ops).sessions x = accrued ops x := by
  induction ops using List.reverseRecOn generalizing x with
  | nil => rfl
  | append_singleton ops op ih =>
    rw [applyOps_append, accrued_append]
    match op with
    | .update cid sid cost now =>
      show lookupCost (updateAfterResponse _ _ _ _ _).sessions x = _
      rw [lookupCost_update]
      simp only [accrueStep]
      by_cases hx : x = cid
      · subst hx
        rw [if_pos rfl, if_pos rfl, ih]
      · rw [if_neg hx, if_neg (fun h => hx h.symm), ih]
    | .reset cid =>
      show lookupCost (resetStore _ _).sessions x = _
      rw [lookupCost_reset]
      simp only [accrueStep]
      by_cases hx : x = cid
      · subst hx
        rw [if_pos rfl, if_pos rfl]
      · rw [if_neg hx, if_neg (fun h => hx h.symm), ih]

/-- C9: after any sequence of `update_after_response` and `reset` calls on an
initially empty store, `total_cost()` equals the sum, over the channels the
sequence touched, of the cost each channel accrued since its last reset
(channels removed by a final `reset` contribute 0); in particular, with
channel 1 accruing 0.10 and channel 2 accruing 0.20, the total is 0.30. -/
theorem c9_total_cost :
    (∀ (dm : List Char) (ops : List StoreOp),
      totalCost (applyOps dm ops) = ((opChannels ops).map (accrued ops)).sum) ∧
    totalCost (applyOps "sonnet".toList
      [.update 1 "s1".toList (1 / 10) 0, .update 2 "s2".toList (1 / 5) 0])
      = 3 / 10 := by
  have main : ∀ (dm : List Char) (ops : List StoreOp),
      totalCost (applyOps dm ops) = ((opChannels ops).map (accrued ops)).sum := by
    intro dm ops
    induction ops using List.reverseRecOn with
    | nil => rfl
    | append_singleton ops op ih =>
      have hnd := applyOps_nodup_keys dm ops
      rw [applyOps_append, opChannels_append]
      have haccS : ∀ x, accrued (ops ++ [op]) x = accrueStep x (accrued ops x) op :=
        fun x => accrued_append ops op x
      match op with
      | .update cid sid cost now =>
        show totalCost (updateAfterResponse _ _ _ _ _) = _
        rw [totalCost_update, ih]
        by_cases hc : cid ∈ opChannels ops
        · rw [show chanStep (opChannels ops) (.update cid sid cost now)
              = opChannels ops from by unfold chanStep opChannel; rw [if_pos hc]]
          rw [sum_map_update_one (opChannels ops) (accrued (ops ++ [StoreOp.update cid sid cost now]))
            (accrued ops) cid (opChannels_nodup ops) hc
            (fun x _ hxne => by
              rw [haccS x]
              simp only [accrueStep]
              rw [if_neg (fun h => hxne h.symm)])]
          rw [haccS cid]
          simp only [accrueStep, if_true]
          ring
        · rw [show chanStep (opChannels ops) (.update cid sid cost now)
              = opChannels ops ++ [cid] from by unfold chanStep opChannel; rw [if_neg hc]]
          rw [List.map_append, List.sum_append, List.map_singleton, List.sum_singleton]
          rw [sum_map_congr (opChannels ops) (accrued (ops ++ [StoreOp.update cid sid cost now]))
            (accrued ops)
            (fun x hx => by
              rw [haccS x]
              simp only [accrueStep]
              rw [if_neg (fun h => hc (by rw [h]; exact hx))])]
          rw [haccS cid]
          simp only [accrueStep, if_true]
          rw [accrued_eq_zero_of_not_mem ops cid hc]
          ring
      | .reset cid =>
        show totalCost (resetStore _ _) = _
        rw [totalCost_reset _ _ hnd, applyOps_lookupCost, ih]
        by_cases hc : cid ∈ opChannels ops
        · rw [show chanStep (opChannels ops) (.reset cid)
              = opChannels ops from by unfold chanStep opChannel; rw [if_pos hc]]
          rw [sum_map_update_one (opChannels ops) (accrued (ops ++ [StoreOp.reset cid]))
            (accrued ops) cid (opChannels_nodup ops) hc
            (fun x _ hxne => by
              rw [haccS x]
              simp only [accrueStep]
              rw [if_neg (fun h => hxne h.symm)])]
          rw [haccS cid]
          simp only [accrueStep, if_true]
          ring
        · rw [show chanStep (opChannels ops) (.reset cid)
              = opChannels ops ++ [cid] from by unfold chanStep opChannel; rw [if_neg hc]]
          rw [List.map_append, List.sum_append, List.map_singleton, List.sum_singleton]
          rw [sum_map_congr (opChannels ops) (accrued (ops ++ [StoreOp.reset cid]))
            (accrued ops)
            (fun x hx => by
              rw [haccS x]
              simp only [accrueStep]
              rw [if_neg (fun h => hc (by rw [h]; exact hx))])]
          rw [haccS cid]
          simp only [accrueStep, if_true]
          rw [accrued_eq_zero_of_not_mem ops cid hc]
          ring
  refine ⟨main, ?_⟩
  rw [main]
  show ((opChannels [.update 1 "s1".toList (1 / 10) 0, .update 2 "s2".toList (1 / 5) 0]).map
    (accrued [.update 1 "s1".toList (1 / 10) 0, .update 2 "s2".toList (1 / 5) 0])).sum = 3 / 10
  norm_num [opChannels, chanStep, accrued, accrueStep, opChannel, List.foldl]

/-! ### cog_chat.py: the response-handling tail of `_handle_message` -/

/-- The `ClaudeResponse` dataclass with its declared field types (the view
the cog consumes). -/
structure ClaudeResponse where
  text : List Char
  session_id : List Char
  cost_usd : ℚ
  duration_secs : ℚ
  is_error : Bool

/-- One observable output action of the handler. -/
inductive BotAction where
  | reply (msg : List Char) : BotAction
  | sendChunk (chunk : List Char) : BotAction
  | sendFile (path : List Char) : BotAction
  | footer (model : List Char) (turn : Nat) (cost dur : ℚ) : BotAction

/-- The error reply sent to the user, wrapping the bounded preview. -/
def errorReplyText (preview : List Char) : List Char :=
  "Claude 실행에 실패했습니다.\n```\n".toList ++ preview ++ "\n```".toList

/-- `"unknown error"`. -/
def unknownErrorText : List Char := "unknown error".toList

/-- The tail of `ChatCog._handle_message` after `runner.run` returns: the
branch on `response.is_error`, the session update, chunked sends, artifact
sends, the history append and the cost footer.  `detect` abstracts
`detect_output_files`; a `none` result means the chunking loop diverged. -/
def handleResponse (st : SessionStore) (key : Int) (prompt : List Char)
    (resp : ClaudeResponse) (now : Nat) (detect : List Char → List (List Char)) :
    Option (SessionStore × List BotAction) :=
  if resp.is_error then
    let preview := if ¬resp.text.isEmpty then resp.text.take 300 else unknownErrorText
    some (st, [.reply (errorReplyText preview)])
  else
    let st1 := updateAfterResponse st key resp.session_id resp.cost_usd now
    let session := (getSession st1 key now).1
    match split_message resp.text with
    | none => none
    | some chunks =>
      let st2 := addHistory st1 key prompt resp.text now
      some (st2,
        chunks.map BotAction.sendChunk
          ++ (detect resp.text).map BotAction.sendFile
          ++ (if resp.cost_usd > 0 then
              [.footer session.model session.turn_count resp.cost_usd resp.duration_secs]
            else []))

/-- C7: for every turn whose response has `is_error` set, the handler replies
with a preview of at most 300 characters of the error text (or the
`unknown error` marker when the text is empty) and leaves the session store
completely unchanged: no turn increment, no cost accrual, no session-id
update, and no history entry. -/
theorem c7_error_turn_no_session_update (st : SessionStore) (key : Int)
    (prompt : List Char) (resp : ClaudeResponse) (now : Nat)
    (detect : List Char → List (List Char)) (herr : resp.is_error = true) :
    handleResponse st key prompt resp now detect
      = some (st, [.reply (errorReplyText
          (if ¬resp.text.isEmpty then resp.text.take 300 else unknownErrorText))])
    ∧ (if ¬resp.text.isEmpty then resp.text.take 300 else unknownErrorText).length
        ≤ 300 := by
  constructor
  · unfold handleResponse
    rw [if_pos (by rw [herr])]
  · by_cases ht : resp.text.isEmpty
    · rw [if_neg (by simpa using ht)]
      show unknownErrorText.length ≤ 300
      decide
    · rw [if_pos (by simpa using ht)]
      rw [List.length_take]
      exact min_le_left _ _

/-- C7 witness: a concrete error response (`"boom"`) leaves a concrete store
untouched and produces the bounded error reply. -/
theorem c7_witness :
    handleResponse (emptyStore "sonnet".toList) 1 [] ⟨"boom".toList, [], 0, 0, true⟩ 0
        (fun _ => [])
      = some (emptyStore "sonnet".toList, [.reply (errorReplyText
          (if ¬("boom".toList : List Char).isEmpty
            then ("boom".toList : List Char).take 300 else unknownErrorText))])
    ∧ (if ¬("boom".toList : List Char).isEmpty
        then ("boom".toList : List Char).take 300 else unknownErrorText).length ≤ 300 :=
  c7_error_turn_no_session_update (emptyStore "sonnet".toList) 1 []
    ⟨"boom".toList, [], 0, 0, true⟩ 0 (fun _ => []) rfl

end SecondBrainKit
